import Mathlib

/-!
Verification of the task-track scheduler (src/task_track.py).

The embedding models the allocation core of `TaskScheduler`:
`schedule_tasks` (sort + first greedy pass + call to `split_up_tasks`),
`split_up_tasks` (second greedy pass over the leftover entries), and the
error branch of `get_data` composed with `main`.

Conventions of the embedding:
* Timestamps are minutes encoded as `Int`.  The JSON loader parses times
  with format "%Y-%m-%d %H:%M", so every timestamp is minute-granular and
  `(end_time - start_time).total_seconds() // 60` is exactly the integer
  difference of the two minute values.
* A due date is encoded as an `Int` whose order agrees with the
  chronological order of the parsed `datetime` values (only the order of
  due dates is ever used by the code).
* A slot carries a ghost identifier `id : Nat` (its index in the loaded
  slot list).  The algorithm never reads it; it only lets per-slot
  statements name the slot a fragment was carved from.  Fragments record
  that ghost id as provenance; the Python schedule entries store only
  task, start and end.
* Python's `list.sort(key=..., reverse=True)` is a stable sort by the
  key, descending.  It is embedded as a stable insertion sort with the
  same comparator, which is extensionally the unique such ordering.
* The walks append to the global `self.schedule`; the embedding returns
  the list of fragments a walk produced and the caller appends them,
  which yields the identical final ledger.
-/

namespace TaskTrack

/-- A task record as loaded from JSON: `name`, `priority`, `due_date`
(already parsed, encoded order-isomorphically as an `Int`), `duration`
in minutes. -/
structure Task where
  name : String
  priority : Int
  due : Int
  duration : Int
deriving Repr, DecidableEq

/-- One entry of `self.time_slots`: a half-open interval of minutes
`[start, stop)` (the source's `start_time`, `end_time`; `end` is a Lean
keyword), plus the ghost provenance index `id`. -/
structure Slot where
  id : Nat
  start : Int
  stop : Int
deriving Repr, DecidableEq

/-- One entry of `self.schedule`: the dict
`{"task": task, "start_time": ..., "end_time": ...}`, plus the ghost id
of the slot the fragment was carved from. -/
structure Frag where
  task : Task
  start : Int
  stop : Int
  slotId : Nat
deriving Repr, DecidableEq

/-- Result of one inner slot-walk: the slot pool after the walk, the
final value of the local `remaining_time`, and the fragments this walk
appended to `self.schedule` (in append order). -/
structure WalkOut where
  slots : List Slot
  rem : Int
  frags : List Frag
deriving Repr, DecidableEq

/-- The sort key of `schedule_tasks`:
`(task["priority"], strptime(task["due_date"]))`. -/
def taskKey (t : Task) : Int × Int := (t.priority, t.due)

/-- Comparator of the stable descending sort: `keyLe a b` holds when the
key of `b` is lexicographically at most the key of `a`, i.e. `a` may be
placed before `b` in the `reverse=True` order. -/
def keyLe (a b : Task) : Prop :=
  b.priority < a.priority ∨ (b.priority = a.priority ∧ b.due ≤ a.due)

instance (a b : Task) : Decidable (keyLe a b) := by
  unfold keyLe; infer_instance

/-- Stable descending insertion: place `a` before the first element
whose key is at most the key of `a` (so among equal keys, `a`, which
came earlier in the original list, stays first: Python's sort is
stable). -/
def insertDesc (a : Task) : List Task → List Task
  | [] => [a]
  | b :: bs => if keyLe a b then a :: b :: bs else b :: insertDesc a bs

/-- Embedding of
`self.tasks.sort(key=lambda task: (priority, strptime(due)), reverse=True)`:
the stable sort by the tuple key, descending.  Note `reverse=True`
reverses the whole tuple comparison, so among equal priorities the task
with the LATER due date comes first. -/
def sortTasks : List Task → List Task
  | [] => []
  | t :: ts => insertDesc t (sortTasks ts)

/-- The inner slot loop shared by `schedule_tasks` (`sp = false`) and
`split_up_tasks` (`sp = true`); the two loop bodies in the source are
identical except that `split_up_tasks` additionally ends its loop body
with `if remaining_time <= 0: break`.  `fuel` is the number of
iterations left of `for i in range(len(self.time_slots))` (the range is
computed once; the list length only changes at the `pop`, which is
immediately followed by `break`), `i` the current index, `rem` the local
`remaining_time`.  The returned fragments are the schedule entries this
walk appends, in order. -/
def walk (sp : Bool) (t : Task) : Nat → Nat → List Slot → Int → WalkOut
  | 0, _, slots, rem => ⟨slots, rem, []⟩
  | fuel + 1, i, slots, rem =>
    match slots[i]? with
    | none => ⟨slots, rem, []⟩
    | some s =>
      if 0 < rem ∧ 0 < s.stop - s.start then
        let c := min rem (s.stop - s.start)
        let f : Frag := ⟨t, s.start, s.start + c, s.id⟩
        let slots2 := slots.set i ⟨s.id, s.start + c, s.stop⟩
        if s.stop ≤ s.start + c then
          ⟨slots2.eraseIdx i, rem - c, [f]⟩
        else if sp ∧ rem - c ≤ 0 then
          ⟨slots2, rem - c, [f]⟩
        else
          let w := walk sp t fuel (i + 1) slots2 (rem - c)
          ⟨w.slots, w.rem, f :: w.frags⟩
      else
        if sp ∧ rem ≤ 0 then ⟨slots, rem, []⟩
        else walk sp t fuel (i + 1) slots rem

/-- State threaded through the task loop of `schedule_tasks`:
`self.time_slots`, `self.schedule`, and the local `unscheduled_tasks`
list of `{"task": ..., "remaining_time": ...}` entries. -/
structure Pass1Out where
  slots : List Slot
  sched : List Frag
  unscheduled : List (Task × Int)
deriving Repr, DecidableEq

/-- One iteration of `for task in self.tasks` in `schedule_tasks`:
run the slot walk with `remaining_time = task["duration"]`, append the
produced fragments to the ledger, and record the task in
`unscheduled_tasks` when `remaining_time > 0` survives the walk. -/
def schedOne (st : Pass1Out) (t : Task) : Pass1Out :=
  let w := walk false t st.slots.length 0 st.slots t.duration
  { slots := w.slots
    sched := st.sched ++ w.frags
    unscheduled :=
      if 0 < w.rem then st.unscheduled ++ [(t, w.rem)] else st.unscheduled }

/-- State threaded through `split_up_tasks`: the pool, the ledger, and
the ghost record of each processed entry's final `remaining_time`
(the source computes this value and discards it). -/
structure Pass2Out where
  slots : List Slot
  sched : List Frag
  finalRems : List (Task × Int)
deriving Repr, DecidableEq

/-- One iteration of `for entry in unscheduled_tasks` in
`split_up_tasks`. -/
def splitOne (st : Pass2Out) (e : Task × Int) : Pass2Out :=
  let w := walk true e.1 st.slots.length 0 st.slots e.2
  { slots := w.slots
    sched := st.sched ++ w.frags
    finalRems := st.finalRems ++ [(e.1, w.rem)] }

/-- Embedding of `TaskScheduler.split_up_tasks(unscheduled_tasks)`,
run against the given pool and ledger. -/
def split_up_tasks (entries : List (Task × Int)) (slots : List Slot)
    (sched : List Frag) : Pass2Out :=
  entries.foldl splitOne ⟨slots, sched, []⟩

/-- The complete observable state after one full pass of
`schedule_tasks` (which ends by calling `split_up_tasks`):
`self.tasks` (sorted in place), `self.time_slots`, `self.schedule`,
plus the `unscheduled_tasks` list handed to `split_up_tasks` and the
ghost final remaining of each of its entries. -/
structure PassOut where
  tasks : List Task
  slots : List Slot
  sched : List Frag
  unscheduled : List (Task × Int)
  finalRems : List (Task × Int)
deriving Repr, DecidableEq

/-- Embedding of `TaskScheduler.schedule_tasks` on a scheduler whose
`schedule` is empty (the state after `__init__` and `get_data`):
sort `self.tasks` descending by `(priority, due)`, greedily walk the
slots for each task in that order, collect tasks with leftover
`remaining_time` and pass them to `split_up_tasks`. -/
def schedule_tasks (tasks : List Task) (slots : List Slot) : PassOut :=
  let sorted := sortTasks tasks
  let p1 := sorted.foldl schedOne ⟨slots, [], []⟩
  let p2 := split_up_tasks p1.unscheduled p1.slots p1.sched
  ⟨sorted, p2.slots, p2.sched, p1.unscheduled, p2.finalRems⟩

/-- Build the slot pool from the loaded `(start, end)` pairs, tagging
each slot with its index as ghost provenance. -/
def mkPool (raw : List (Int × Int)) : List Slot :=
  raw.enum.map (fun p => ⟨p.1, p.2.1, p.2.2⟩)

/-- Well-formed loaded slots: mutually disjoint half-open intervals
listed in ascending-start order (each slot ends before the next
starts). -/
def WellFormedSlots (raw : List (Int × Int)) : Prop :=
  raw.Pairwise (fun a b => a.2 ≤ b.1)

instance (raw : List (Int × Int)) : Decidable (WellFormedSlots raw) := by
  unfold WellFormedSlots; infer_instance

/-- Total minutes covered by a list of fragments. -/
def sumDur (fs : List Frag) : Int :=
  (fs.map (fun f => f.stop - f.start)).sum

/-- Total minutes of the fragments recorded for task `t`. -/
def sumFor (t : Task) (fs : List Frag) : Int :=
  sumDur (fs.filter (fun f => f.task == t))

/-- Total remaining minutes recorded for task `t` in a list of
`unscheduled_tasks`-style entries. -/
def entriesFor (t : Task) (es : List (Task × Int)) : Int :=
  ((es.filter (fun e => e.1 == t)).map (fun e => e.2)).sum

/-- The fragments carved from the slot with ghost id `j`, in ledger
order. -/
def fragsOf (j : Nat) (fs : List Frag) : List Frag :=
  fs.filter (fun f => f.slotId == j)

/-- End of the last fragment of a chain, or `lo` if there is none. -/
def lastEnd (lo : Int) (fs : List Frag) : Int :=
  fs.foldl (fun _ f => f.stop) lo

/-- The fragments form a left-to-right chain inside `[lo, hi)`: each
fragment is nonempty, starts no earlier than where the previous one
ended (the first no earlier than `lo`), and stops by `hi`. -/
def ChainIn (lo hi : Int) : List Frag → Prop
  | [] => True
  | f :: fs => lo ≤ f.start ∧ f.start < f.stop ∧ f.stop ≤ hi ∧ ChainIn f.stop hi fs

/-- Invariant tying the fragments carved so far from the slot with
ghost id `j` (original bounds `[s0, e0)`) to the current pool: the
per-`j` fragments form a chain inside `[s0, e0)`, pool ids are
pairwise distinct, and if slot `j` is still in the pool its `stop` is
the original `e0` and its current `start` lies at or after the end of
the last `j`-fragment (a slot is only ever shrunk from its start). -/
def PoolInv (j : Nat) (s0 e0 : Int) (slots : List Slot)
    (sched : List Frag) : Prop :=
  ChainIn s0 e0 (fragsOf j sched) ∧
  (slots.map Slot.id).Nodup ∧
  ∀ s ∈ slots, s.id = j →
    s.stop = e0 ∧ lastEnd s0 (fragsOf j sched) ≤ s.start

/-- Possible outcomes of opening and parsing the JSON input file in
`get_data`, abstracting the file system. -/
inductive LoadInput where
  | missingFile
  | malformedJson
  | valid (tasks : List Task) (slots : List (Int × Int))
deriving Repr, DecidableEq

/-- A Python exception escaping `get_data` (anything `json.load` or the
comprehension raises; `FileNotFoundError` is caught inside). -/
inductive LoadError where
  | parseError
deriving Repr, DecidableEq

/-- Embedding of `TaskScheduler.get_data`: on a missing file the
`except FileNotFoundError` branch prints a message and returns `None`,
leaving `self.tasks` and `self.time_slots` as the empty lists from
`__init__`; a malformed file makes `json.load` (or the parsing
comprehension) raise, which propagates; a valid file loads both
lists. -/
def get_data : LoadInput → Except LoadError (List Task × List (Int × Int))
  | .missingFile => .ok ([], [])
  | .malformedJson => .error .parseError
  | .valid ts ss => .ok (ts, ss)

/-- Embedding of `main` after argument parsing: `get_data` followed
unconditionally by `schedule_tasks` (the `None` returned for a missing
file is never checked), stopping only if an exception propagates. -/
def mainRun (inp : LoadInput) : Except LoadError PassOut :=
  match get_data inp with
  | .error e => .error e
  | .ok (ts, ss) => .ok (schedule_tasks ts (mkPool ss))

example : (schedule_tasks [⟨"X", 5, 0, 60⟩] (mkPool [(540, 600)])).sched
    = [⟨⟨"X", 5, 0, 60⟩, 540, 600, 0⟩] := by decide

example : (schedule_tasks [⟨"W", 1, 0, 90⟩] (mkPool [(540, 570), (600, 660)])).sched
    = [⟨⟨"W", 1, 0, 90⟩, 540, 570, 0⟩, ⟨⟨"W", 1, 0, 90⟩, 600, 660, 1⟩] := by decide

theorem sumDur_nil : sumDur [] = 0 := rfl

theorem sumDur_cons (f : Frag) (fs : List Frag) :
    sumDur (f :: fs) = (f.stop - f.start) + sumDur fs := by
  simp [sumDur]

theorem sumDur_append (a b : List Frag) :
    sumDur (a ++ b) = sumDur a + sumDur b := by
  simp [sumDur]

theorem walk_zero (sp : Bool) (t : Task) (i : Nat) (slots : List Slot) (rem : Int) :
    walk sp t 0 i slots rem = ⟨slots, rem, []⟩ := by
  simp [walk]

theorem walk_succ_none {sp : Bool} {t : Task} {fuel i : Nat} {slots : List Slot}
    {rem : Int} (hs : slots[i]? = none) :
    walk sp t (fuel + 1) i slots rem = ⟨slots, rem, []⟩ := by
  simp only [walk, hs]

theorem walk_succ_some {sp : Bool} {t : Task} {fuel i : Nat} {slots : List Slot}
    {rem : Int} {s : Slot} (hs : slots[i]? = some s) :
    walk sp t (fuel + 1) i slots rem =
      if 0 < rem ∧ 0 < s.stop - s.start then
        if s.stop ≤ s.start + min rem (s.stop - s.start) then
          ⟨(slots.set i ⟨s.id, s.start + min rem (s.stop - s.start), s.stop⟩).eraseIdx i,
           rem - min rem (s.stop - s.start),
           [⟨t, s.start, s.start + min rem (s.stop - s.start), s.id⟩]⟩
        else if sp ∧ rem - min rem (s.stop - s.start) ≤ 0 then
          ⟨slots.set i ⟨s.id, s.start + min rem (s.stop - s.start), s.stop⟩,
           rem - min rem (s.stop - s.start),
           [⟨t, s.start, s.start + min rem (s.stop - s.start), s.id⟩]⟩
        else
          ⟨(walk sp t fuel (i + 1)
              (slots.set i ⟨s.id, s.start + min rem (s.stop - s.start), s.stop⟩)
              (rem - min rem (s.stop - s.start))).slots,
           (walk sp t fuel (i + 1)
              (slots.set i ⟨s.id, s.start + min rem (s.stop - s.start), s.stop⟩)
              (rem - min rem (s.stop - s.start))).rem,
           ⟨t, s.start, s.start + min rem (s.stop - s.start), s.id⟩ ::
             (walk sp t fuel (i + 1)
                (slots.set i ⟨s.id, s.start + min rem (s.stop - s.start), s.stop⟩)
                (rem - min rem (s.stop - s.start))).frags⟩
      else
        if sp ∧ rem ≤ 0 then ⟨slots, rem, []⟩
        else walk sp t fuel (i + 1) slots rem := by
  simp only [walk, hs]

theorem walk_nil (sp : Bool) (t : Task) (fuel i : Nat) (rem : Int) :
    walk sp t fuel i [] rem = ⟨[], rem, []⟩ := by
  cases fuel with
  | zero => exact walk_zero sp t i [] rem
  | succ fuel => exact walk_succ_none (by simp)

theorem walk_nonpos (sp : Bool) (t : Task) :
    ∀ (fuel i : Nat) (slots : List Slot) (rem : Int), rem ≤ 0 →
      walk sp t fuel i slots rem = ⟨slots, rem, []⟩ := by
  intro fuel
  induction fuel with
  | zero => intro i slots rem _; exact walk_zero sp t i slots rem
  | succ fuel ih =>
    intro i slots rem h
    cases hs : slots[i]? with
    | none => exact walk_succ_none hs
    | some s =>
      rw [walk_succ_some hs]
      rw [if_neg (by omega : ¬(0 < rem ∧ 0 < s.stop - s.start))]
      cases sp with
      | true => rw [if_pos ⟨rfl, h⟩]
      | false =>
        rw [if_neg (by simp)]
        exact ih (i + 1) slots rem h

theorem walk_conserve (sp : Bool) (t : Task) :
    ∀ (fuel i : Nat) (slots : List Slot) (rem : Int),
      (walk sp t fuel i slots rem).rem
        + sumDur (walk sp t fuel i slots rem).frags = rem := by
  intro fuel
  induction fuel with
  | zero => intro i slots rem; rw [walk_zero]; simp [sumDur]
  | succ fuel ih =>
    intro i slots rem
    cases hs : slots[i]? with
    | none => rw [walk_succ_none hs]; simp [sumDur]
    | some s =>
      rw [walk_succ_some hs]
      by_cases hg : 0 < rem ∧ 0 < s.stop - s.start
      · rw [if_pos hg]
        by_cases hpop : s.stop ≤ s.start + min rem (s.stop - s.start)
        · rw [if_pos hpop]
          simp [sumDur]
        · rw [if_neg hpop]
          by_cases hbr : (sp : Prop) ∧ rem - min rem (s.stop - s.start) ≤ 0
          · rw [if_pos hbr]
            simp [sumDur]
          · rw [if_neg hbr]
            have h2 := ih (i + 1)
              (slots.set i ⟨s.id, s.start + min rem (s.stop - s.start), s.stop⟩)
              (rem - min rem (s.stop - s.start))
            simp only [sumDur_cons]
            omega
      · rw [if_neg hg]
        by_cases hbr : (sp : Prop) ∧ rem ≤ 0
        · rw [if_pos hbr]; simp [sumDur]
        · rw [if_neg hbr]
          exact ih (i + 1) slots rem

theorem walk_rem_nonneg (sp : Bool) (t : Task) :
    ∀ (fuel i : Nat) (slots : List Slot) (rem : Int), 0 ≤ rem →
      0 ≤ (walk sp t fuel i slots rem).rem := by
  intro fuel
  induction fuel with
  | zero => intro i slots rem h; rw [walk_zero]; exact h
  | succ fuel ih =>
    intro i slots rem h
    cases hs : slots[i]? with
    | none => rw [walk_succ_none hs]; exact h
    | some s =>
      rw [walk_succ_some hs]
      by_cases hg : 0 < rem ∧ 0 < s.stop - s.start
      · rw [if_pos hg]
        by_cases hpop : s.stop ≤ s.start + min rem (s.stop - s.start)
        · rw [if_pos hpop]; dsimp only; omega
        · rw [if_neg hpop]
          by_cases hbr : (sp : Prop) ∧ rem - min rem (s.stop - s.start) ≤ 0
          · rw [if_pos hbr]; dsimp only; omega
          · rw [if_neg hbr]
            dsimp only
            exact ih (i + 1) _ _ (by omega)
      · rw [if_neg hg]
        by_cases hbr : (sp : Prop) ∧ rem ≤ 0
        · rw [if_pos hbr]; exact h
        · rw [if_neg hbr]; exact ih (i + 1) slots rem h

theorem walk_rem_le (sp : Bool) (t : Task) :
    ∀ (fuel i : Nat) (slots : List Slot) (rem : Int),
      (walk sp t fuel i slots rem).rem ≤ rem := by
  intro fuel
  induction fuel with
  | zero => intro i slots rem; rw [walk_zero]
  | succ fuel ih =>
    intro i slots rem
    cases hs : slots[i]? with
    | none => rw [walk_succ_none hs]
    | some s =>
      rw [walk_succ_some hs]
      by_cases hg : 0 < rem ∧ 0 < s.stop - s.start
      · rw [if_pos hg]
        by_cases hpop : s.stop ≤ s.start + min rem (s.stop - s.start)
        · rw [if_pos hpop]; dsimp only; omega
        · rw [if_neg hpop]
          by_cases hbr : (sp : Prop) ∧ rem - min rem (s.stop - s.start) ≤ 0
          · rw [if_pos hbr]; dsimp only; omega
          · rw [if_neg hbr]
            have h2 := ih (i + 1)
              (slots.set i ⟨s.id, s.start + min rem (s.stop - s.start), s.stop⟩)
              (rem - min rem (s.stop - s.start))
            dsimp only
            omega
      · rw [if_neg hg]
        by_cases hbr : (sp : Prop) ∧ rem ≤ 0
        · rw [if_pos hbr]
        · rw [if_neg hbr]; exact ih (i + 1) slots rem

theorem walk_frags_task (sp : Bool) (t : Task) :
    ∀ (fuel i : Nat) (slots : List Slot) (rem : Int),
      ∀ f ∈ (walk sp t fuel i slots rem).frags, f.task = t := by
  intro fuel
  induction fuel with
  | zero => intro i slots rem f hf; rw [walk_zero] at hf; simp at hf
  | succ fuel ih =>
    intro i slots rem f hf
    cases hs : slots[i]? with
    | none => rw [walk_succ_none hs] at hf; simp at hf
    | some s =>
      rw [walk_succ_some hs] at hf
      by_cases hg : 0 < rem ∧ 0 < s.stop - s.start
      · rw [if_pos hg] at hf
        by_cases hpop : s.stop ≤ s.start + min rem (s.stop - s.start)
        · rw [if_pos hpop] at hf
          simp at hf; rw [hf]
        · rw [if_neg hpop] at hf
          by_cases hbr : (sp : Prop) ∧ rem - min rem (s.stop - s.start) ≤ 0
          · rw [if_pos hbr] at hf; simp at hf; rw [hf]
          · rw [if_neg hbr] at hf
            simp only [List.mem_cons] at hf
            rcases hf with hf | hf
            · rw [hf]
            · exact ih (i + 1) _ _ f hf
      · rw [if_neg hg] at hf
        by_cases hbr : (sp : Prop) ∧ rem ≤ 0
        · rw [if_pos hbr] at hf; simp at hf
        · rw [if_neg hbr] at hf
          exact ih (i + 1) slots rem f hf

theorem walk_frags_pos (sp : Bool) (t : Task) :
    ∀ (fuel i : Nat) (slots : List Slot) (rem : Int),
      ∀ f ∈ (walk sp t fuel i slots rem).frags, 0 < f.stop - f.start := by
  intro fuel
  induction fuel with
  | zero => intro i slots rem f hf; rw [walk_zero] at hf; simp at hf
  | succ fuel ih =>
    intro i slots rem f hf
    cases hs : slots[i]? with
    | none => rw [walk_succ_none hs] at hf; simp at hf
    | some s =>
      rw [walk_succ_some hs] at hf
      by_cases hg : 0 < rem ∧ 0 < s.stop - s.start
      · rw [if_pos hg] at hf
        have hc : 0 < min rem (s.stop - s.start) := lt_min hg.1 hg.2
        by_cases hpop : s.stop ≤ s.start + min rem (s.stop - s.start)
        · rw [if_pos hpop] at hf
          simp at hf; rw [hf]; simp; omega
        · rw [if_neg hpop] at hf
          by_cases hbr : (sp : Prop) ∧ rem - min rem (s.stop - s.start) ≤ 0
          · rw [if_pos hbr] at hf; simp at hf; rw [hf]; simp; omega
          · rw [if_neg hbr] at hf
            simp only [List.mem_cons] at hf
            rcases hf with hf | hf
            · rw [hf]; simp; omega
            · exact ih (i + 1) _ _ f hf
      · rw [if_neg hg] at hf
        by_cases hbr : (sp : Prop) ∧ rem ≤ 0
        · rw [if_pos hbr] at hf; simp at hf
        · rw [if_neg hbr] at hf
          exact ih (i + 1) slots rem f hf

theorem walk_frags_len (sp : Bool) (t : Task) :
    ∀ (fuel i : Nat) (slots : List Slot) (rem : Int),
      (walk sp t fuel i slots rem).frags.length ≤ 1 := by
  intro fuel
  induction fuel with
  | zero => intro i slots rem; rw [walk_zero]; simp
  | succ fuel ih =>
    intro i slots rem
    cases hs : slots[i]? with
    | none => rw [walk_succ_none hs]; simp
    | some s =>
      rw [walk_succ_some hs]
      by_cases hg : 0 < rem ∧ 0 < s.stop - s.start
      · rw [if_pos hg]
        by_cases hpop : s.stop ≤ s.start + min rem (s.stop - s.start)
        · rw [if_pos hpop]; simp
        · rw [if_neg hpop]
          by_cases hbr : (sp : Prop) ∧ rem - min rem (s.stop - s.start) ≤ 0
          · rw [if_pos hbr]; simp
          · rw [if_neg hbr]
            have hz : rem - min rem (s.stop - s.start) ≤ 0 := by omega
            rw [walk_nonpos sp t fuel (i + 1) _ _ hz]
            simp
      · rw [if_neg hg]
        by_cases hbr : (sp : Prop) ∧ rem ≤ 0
        · rw [if_pos hbr]; simp
        · rw [if_neg hbr]; exact ih (i + 1) slots rem

theorem walk_slots_len_le (sp : Bool) (t : Task) :
    ∀ (fuel i : Nat) (slots : List Slot) (rem : Int),
      (walk sp t fuel i slots rem).slots.length ≤ slots.length := by
  intro fuel
  induction fuel with
  | zero => intro i slots rem; rw [walk_zero]
  | succ fuel ih =>
    intro i slots rem
    cases hs : slots[i]? with
    | none => rw [walk_succ_none hs]
    | some s =>
      rw [walk_succ_some hs]
      by_cases hg : 0 < rem ∧ 0 < s.stop - s.start
      · rw [if_pos hg]
        by_cases hpop : s.stop ≤ s.start + min rem (s.stop - s.start)
        · rw [if_pos hpop]
          refine le_trans (List.length_eraseIdx_le _ _) ?_
          exact le_of_eq (List.length_set _ _ _)
        · rw [if_neg hpop]
          by_cases hbr : (sp : Prop) ∧ rem - min rem (s.stop - s.start) ≤ 0
          · rw [if_pos hbr]; simp
          · rw [if_neg hbr]
            have h2 := ih (i + 1)
              (slots.set i ⟨s.id, s.start + min rem (s.stop - s.start), s.stop⟩)
              (rem - min rem (s.stop - s.start))
            simpa using h2
      · rw [if_neg hg]
        by_cases hbr : (sp : Prop) ∧ rem ≤ 0
        · rw [if_pos hbr]
        · rw [if_neg hbr]; exact ih (i + 1) slots rem

theorem walk_dead (sp : Bool) (t : Task) :
    ∀ (fuel i : Nat) (slots : List Slot) (rem : Int),
      (∀ s ∈ slots, s.stop - s.start ≤ 0) →
      walk sp t fuel i slots rem = ⟨slots, rem, []⟩ := by
  intro fuel
  induction fuel with
  | zero => intro i slots rem _; exact walk_zero sp t i slots rem
  | succ fuel ih =>
    intro i slots rem hdead
    cases hs : slots[i]? with
    | none => exact walk_succ_none hs
    | some s =>
      rw [walk_succ_some hs]
      have hms : s ∈ slots := List.getElem?_mem hs
      rw [if_neg (by have := hdead s hms; omega : ¬(0 < rem ∧ 0 < s.stop - s.start))]
      by_cases hbr : (sp : Prop) ∧ rem ≤ 0
      · rw [if_pos hbr]
      · rw [if_neg hbr]
        exact ih (i + 1) slots rem hdead

theorem insertDesc_perm (a : Task) (l : List Task) :
    (insertDesc a l).Perm (a :: l) := by
  induction l with
  | nil => exact List.Perm.refl _
  | cons b bs ih =>
    by_cases h : keyLe a b
    · rw [insertDesc, if_pos h]
    · rw [insertDesc, if_neg h]
      exact ((ih.cons b).trans (List.Perm.swap a b bs))

theorem sortTasks_perm (l : List Task) : (sortTasks l).Perm l := by
  induction l with
  | nil => exact List.Perm.refl _
  | cons t ts ih =>
    exact (insertDesc_perm t (sortTasks ts)).trans (ih.cons t)

theorem sortTasks_length (l : List Task) : (sortTasks l).length = l.length :=
  (sortTasks_perm l).length_eq

theorem mem_sortTasks {t : Task} {l : List Task} :
    t ∈ sortTasks l ↔ t ∈ l :=
  (sortTasks_perm l).mem_iff

theorem foldl_schedOne_nil_slots :
    ∀ (l : List Task) (sc : List Frag) (un : List (Task × Int)),
      l.foldl schedOne ⟨[], sc, un⟩ =
        ⟨[], sc,
         un ++ (l.filter (fun t => decide (0 < t.duration))).map
           (fun t => (t, t.duration))⟩ := by
  intro l
  induction l with
  | nil => intro sc un; simp
  | cons t ts ih =>
    intro sc un
    have hstep : schedOne ⟨[], sc, un⟩ t =
        ⟨[], sc, if 0 < t.duration then un ++ [(t, t.duration)] else un⟩ := by
      simp [schedOne, walk_zero]
    rw [List.foldl_cons, hstep]
    by_cases hd : 0 < t.duration
    · rw [if_pos hd, ih]
      simp [List.filter_cons, hd]
    · rw [if_neg hd, ih]
      simp [List.filter_cons, hd]

theorem foldl_splitOne_nil_slots :
    ∀ (es : List (Task × Int)) (sc : List Frag) (fr : List (Task × Int)),
      es.foldl splitOne ⟨[], sc, fr⟩ = ⟨[], sc, fr ++ es⟩ := by
  intro es
  induction es with
  | nil => intro sc fr; simp
  | cons e es ih =>
    intro sc fr
    have hstep : splitOne ⟨[], sc, fr⟩ e = ⟨[], sc, fr ++ [e]⟩ := by
      simp [splitOne, walk_zero]
    rw [List.foldl_cons, hstep, ih, List.append_assoc]
    rfl

/-- C7.  With a non-empty task set and an empty slot pool, one full
pass (`schedule_tasks`, which ends by calling `split_up_tasks`)
produces an empty ledger and leaves every task unallocated: every
positive-duration task appears in the `unscheduled_tasks` list with its
full duration remaining, every entry of that list keeps its full
duration through `split_up_tasks`, and no fragment is ever created.
The pass is a total function, so no error is raised. -/
theorem C7_empty_pool_empty_ledger (tasks : List Task) (hne : tasks ≠ []) :
    (schedule_tasks tasks []).sched = [] ∧
    (schedule_tasks tasks []).slots = [] ∧
    (schedule_tasks tasks []).finalRems = (schedule_tasks tasks []).unscheduled ∧
    (∀ e ∈ (schedule_tasks tasks []).unscheduled, e.2 = e.1.duration) ∧
    (∀ t ∈ tasks, 0 < t.duration →
      (t, t.duration) ∈ (schedule_tasks tasks []).unscheduled) := by
  have hout : schedule_tasks tasks [] =
      ⟨sortTasks tasks, [], [],
       ((sortTasks tasks).filter (fun t => decide (0 < t.duration))).map
         (fun t => (t, t.duration)),
       ((sortTasks tasks).filter (fun t => decide (0 < t.duration))).map
         (fun t => (t, t.duration))⟩ := by
    simp only [schedule_tasks, foldl_schedOne_nil_slots, split_up_tasks,
      foldl_splitOne_nil_slots]
    rfl
  rw [hout]
  refine ⟨rfl, rfl, rfl, ?_, ?_⟩
  · intro e he
    simp only [List.mem_map] at he
    obtain ⟨u, _, hu⟩ := he
    rw [← hu]
  · intro t ht hd
    simp only [List.mem_map]
    refine ⟨t, ?_, rfl⟩
    rw [List.mem_filter]
    exact ⟨mem_sortTasks.mpr ht, by simpa using hd⟩

/-- Witness for C7 at a concrete input: one task of duration 45 and no
slots. -/
theorem C7_empty_pool_empty_ledger_witness :
    ([(⟨"A", 2, 7, 45⟩ : Task)] ≠ []) ∧
    ((schedule_tasks [⟨"A", 2, 7, 45⟩] []).sched = [] ∧
     (schedule_tasks [⟨"A", 2, 7, 45⟩] []).slots = [] ∧
     (schedule_tasks [⟨"A", 2, 7, 45⟩] []).finalRems
        = (schedule_tasks [⟨"A", 2, 7, 45⟩] []).unscheduled ∧
     (∀ e ∈ (schedule_tasks [⟨"A", 2, 7, 45⟩] []).unscheduled,
        e.2 = e.1.duration) ∧
     (∀ t ∈ [(⟨"A", 2, 7, 45⟩ : Task)], 0 < t.duration →
        (t, t.duration) ∈ (schedule_tasks [⟨"A", 2, 7, 45⟩] []).unscheduled)) :=
  ⟨by decide, C7_empty_pool_empty_ledger [⟨"A", 2, 7, 45⟩] (by decide)⟩

theorem schedule_tasks_eq (tasks : List Task) (slots : List Slot) :
    schedule_tasks tasks slots =
      ⟨sortTasks tasks,
       (split_up_tasks ((sortTasks tasks).foldl schedOne ⟨slots, [], []⟩).unscheduled
         ((sortTasks tasks).foldl schedOne ⟨slots, [], []⟩).slots
         ((sortTasks tasks).foldl schedOne ⟨slots, [], []⟩).sched).slots,
       (split_up_tasks ((sortTasks tasks).foldl schedOne ⟨slots, [], []⟩).unscheduled
         ((sortTasks tasks).foldl schedOne ⟨slots, [], []⟩).slots
         ((sortTasks tasks).foldl schedOne ⟨slots, [], []⟩).sched).sched,
       ((sortTasks tasks).foldl schedOne ⟨slots, [], []⟩).unscheduled,
       (split_up_tasks ((sortTasks tasks).foldl schedOne ⟨slots, [], []⟩).unscheduled
         ((sortTasks tasks).foldl schedOne ⟨slots, [], []⟩).slots
         ((sortTasks tasks).foldl schedOne ⟨slots, [], []⟩).sched).finalRems⟩ := rfl

theorem foldl_schedOne_inv (P : Task → Prop) :
    ∀ (l : List Task) (st : Pass1Out),
      (∀ f ∈ st.sched, P f.task) → (∀ e ∈ st.unscheduled, P e.1) →
      (∀ u ∈ l, P u) →
      (∀ f ∈ (l.foldl schedOne st).sched, P f.task) ∧
      (∀ e ∈ (l.foldl schedOne st).unscheduled, P e.1) := by
  intro l
  induction l with
  | nil => intro st h1 h2 _; exact ⟨h1, h2⟩
  | cons t ts ih =>
    intro st h1 h2 h3
    rw [List.foldl_cons]
    refine ih (schedOne st t) ?_ ?_ (fun u hu => h3 u (List.mem_cons_of_mem t hu))
    · intro f hf
      simp only [schedOne, List.mem_append] at hf
      rcases hf with hf | hf
      · exact h1 f hf
      · rw [walk_frags_task false t _ _ _ _ f hf]
        exact h3 t (List.mem_cons_self t ts)
    · intro e he
      simp only [schedOne] at he
      by_cases hr : 0 < (walk false t st.slots.length 0 st.slots t.duration).rem
      · rw [if_pos hr] at he
        rcases List.mem_append.mp he with he | he
        · exact h2 e he
        · simp only [List.mem_singleton] at he
          rw [he]
          exact h3 t (List.mem_cons_self t ts)
      · rw [if_neg hr] at he
        exact h2 e he

theorem foldl_splitOne_inv (P : Task → Prop) :
    ∀ (es : List (Task × Int)) (st : Pass2Out),
      (∀ f ∈ st.sched, P f.task) → (∀ e ∈ es, P e.1) →
      ∀ f ∈ (es.foldl splitOne st).sched, P f.task := by
  intro es
  induction es with
  | nil => intro st h1 _ f hf; exact h1 f hf
  | cons e es ih =>
    intro st h1 h2
    rw [List.foldl_cons]
    refine ih (splitOne st e) ?_ (fun u hu => h2 u (List.mem_cons_of_mem e hu))
    intro f hf
    simp only [splitOne, List.mem_append] at hf
    rcases hf with hf | hf
    · exact h1 f hf
    · rw [walk_frags_task true e.1 _ _ _ _ f hf]
      exact h2 e (List.mem_cons_self e es)

/-- C10.  One full pass never modifies any task record: the embedding
treats task records as immutable values, faithfully to the source, in
which `schedule_tasks` and `split_up_tasks` only read the fields
`priority`, `due_date` and `duration` and track remaining time in local
variables and in the separate `unscheduled_tasks` list.  Accordingly
`self.tasks` after the pass is exactly a reordering (a permutation) of
the input tasks, and every ledger fragment references one of the
original task records, field-wise unchanged. -/
theorem C10_tasks_only_reordered (tasks : List Task) (slots : List Slot) :
    (schedule_tasks tasks slots).tasks.Perm tasks ∧
    ∀ f ∈ (schedule_tasks tasks slots).sched, f.task ∈ tasks := by
  constructor
  · rw [schedule_tasks_eq]
    exact sortTasks_perm tasks
  · intro f hf
    rw [schedule_tasks_eq] at hf
    simp only at hf
    have h1 := foldl_schedOne_inv (· ∈ tasks) (sortTasks tasks) ⟨slots, [], []⟩
      (by intro f hf; simp at hf) (by intro e he; simp at he)
      (fun u hu => mem_sortTasks.mp hu)
    exact foldl_splitOne_inv (· ∈ tasks) _ _ h1.1 h1.2 f hf

/-- Witness for C10 at a concrete input. -/
theorem C10_tasks_only_reordered_witness :
    (schedule_tasks [⟨"B", 4, 3, 50⟩] [⟨0, 540, 600⟩]).tasks.Perm
      [(⟨"B", 4, 3, 50⟩ : Task)] ∧
    ∀ f ∈ (schedule_tasks [⟨"B", 4, 3, 50⟩] [⟨0, 540, 600⟩]).sched,
      f.task ∈ [(⟨"B", 4, 3, 50⟩ : Task)] :=
  C10_tasks_only_reordered [⟨"B", 4, 3, 50⟩] [⟨0, 540, 600⟩]

theorem sumFor_nil (t : Task) : sumFor t [] = 0 := rfl

theorem sumFor_append (t : Task) (a b : List Frag) :
    sumFor t (a ++ b) = sumFor t a + sumFor t b := by
  simp [sumFor, sumDur, List.filter_append]

theorem entriesFor_nil (t : Task) : entriesFor t [] = 0 := rfl

theorem entriesFor_append (t : Task) (a b : List (Task × Int)) :
    entriesFor t (a ++ b) = entriesFor t a + entriesFor t b := by
  simp [entriesFor, List.filter_append]

theorem sumFor_eq_sumDur {t : Task} {fs : List Frag}
    (h : ∀ f ∈ fs, f.task = t) : sumFor t fs = sumDur fs := by
  unfold sumFor
  congr 1
  rw [List.filter_eq_self]
  intro f hf
  rw [h f hf]
  simp

theorem sumFor_eq_zero {t u : Task} {fs : List Frag}
    (h : ∀ f ∈ fs, f.task = u) (hne : u ≠ t) : sumFor t fs = 0 := by
  unfold sumFor
  have : fs.filter (fun f => f.task == t) = [] := by
    rw [List.filter_eq_nil_iff]
    intro f hf
    rw [h f hf]
    simp [hne]
  rw [this]
  rfl

theorem foldl_schedOne_acct_notmem (t : Task) :
    ∀ (l : List Task) (st : Pass1Out), t ∉ l →
      sumFor t (l.foldl schedOne st).sched
        + entriesFor t (l.foldl schedOne st).unscheduled
      = sumFor t st.sched + entriesFor t st.unscheduled := by
  intro l
  induction l with
  | nil => intro st _; rfl
  | cons u l ih =>
    intro st hmem
    have hut : u ≠ t := fun h => hmem (h ▸ List.mem_cons_self u l)
    rw [List.foldl_cons, ih _ (fun h => hmem (List.mem_cons_of_mem u h))]
    have hfr := walk_frags_task false u st.slots.length 0 st.slots u.duration
    simp only [schedOne]
    rw [sumFor_append, sumFor_eq_zero hfr hut]
    by_cases hr : 0 < (walk false u st.slots.length 0 st.slots u.duration).rem
    · rw [if_pos hr, entriesFor_append]
      have : entriesFor t
          [(u, (walk false u st.slots.length 0 st.slots u.duration).rem)] = 0 := by
        simp [entriesFor, hut]
      rw [this]
      ring
    · rw [if_neg hr]
      ring

theorem foldl_schedOne_acct_once (t : Task) (hd : 0 ≤ t.duration) :
    ∀ (l : List Task) (st : Pass1Out), l.count t = 1 →
      sumFor t (l.foldl schedOne st).sched
        + entriesFor t (l.foldl schedOne st).unscheduled
      = sumFor t st.sched + entriesFor t st.unscheduled + t.duration := by
  intro l
  induction l with
  | nil => intro st h; simp [List.count_nil] at h
  | cons u l ih =>
    intro st hc
    rw [List.count_cons] at hc
    by_cases hut : u = t
    · subst hut
      have hc0 : l.count u = 0 := by simpa using hc
      have hnot : u ∉ l := List.count_eq_zero.mp hc0
      rw [List.foldl_cons, foldl_schedOne_acct_notmem u l _ hnot]
      have hfr := walk_frags_task false u st.slots.length 0 st.slots u.duration
      have hcons := walk_conserve false u st.slots.length 0 st.slots u.duration
      have hnn := walk_rem_nonneg false u st.slots.length 0 st.slots u.duration hd
      simp only [schedOne]
      rw [sumFor_append, sumFor_eq_sumDur hfr]
      by_cases hr : 0 < (walk false u st.slots.length 0 st.slots u.duration).rem
      · rw [if_pos hr, entriesFor_append]
        have hone : entriesFor u
            [(u, (walk false u st.slots.length 0 st.slots u.duration).rem)]
            = (walk false u st.slots.length 0 st.slots u.duration).rem := by
          simp [entriesFor]
        rw [hone]
        omega
      · rw [if_neg hr]
        omega
    · have hc1 : l.count t = 1 := by
        simpa [hut, Ne.symm hut] using hc
      rw [List.foldl_cons]
      rw [ih _ hc1]
      have hfr := walk_frags_task false u st.slots.length 0 st.slots u.duration
      simp only [schedOne]
      rw [sumFor_append, sumFor_eq_zero hfr hut]
      by_cases hr : 0 < (walk false u st.slots.length 0 st.slots u.duration).rem
      · rw [if_pos hr, entriesFor_append]
        have : entriesFor t
            [(u, (walk false u st.slots.length 0 st.slots u.duration).rem)] = 0 := by
          simp [entriesFor, hut]
        rw [this]
        ring
      · rw [if_neg hr]
        ring

theorem foldl_schedOne_unsch_bounds :
    ∀ (l : List Task) (st : Pass1Out),
      (∀ e ∈ st.unscheduled, 0 < e.2 ∧ e.2 ≤ e.1.duration) →
      ∀ e ∈ (l.foldl schedOne st).unscheduled, 0 < e.2 ∧ e.2 ≤ e.1.duration := by
  intro l
  induction l with
  | nil => intro st h; exact h
  | cons u l ih =>
    intro st h
    rw [List.foldl_cons]
    refine ih _ ?_
    intro e he
    simp only [schedOne] at he
    by_cases hr : 0 < (walk false u st.slots.length 0 st.slots u.duration).rem
    · rw [if_pos hr] at he
      rcases List.mem_append.mp he with he | he
      · exact h e he
      · simp only [List.mem_singleton] at he
        subst he
        exact ⟨hr, walk_rem_le false u st.slots.length 0 st.slots u.duration⟩
    · rw [if_neg hr] at he
      exact h e he

theorem foldl_splitOne_acct (t : Task) :
    ∀ (es : List (Task × Int)) (st : Pass2Out), (∀ e ∈ es, 0 ≤ e.2) →
      sumFor t (es.foldl splitOne st).sched
        ≤ sumFor t st.sched + entriesFor t es := by
  intro es
  induction es with
  | nil => intro st _; simp [entriesFor]
  | cons e es ih =>
    intro st hpos
    rw [List.foldl_cons]
    have hrec := ih (splitOne st e) (fun x hx => hpos x (List.mem_cons_of_mem e hx))
    have he2 : 0 ≤ e.2 := hpos e (List.mem_cons_self e es)
    have hcons := walk_conserve true e.1 st.slots.length 0 st.slots e.2
    have hnn := walk_rem_nonneg true e.1 st.slots.length 0 st.slots e.2 he2
    have hfr := walk_frags_task true e.1 st.slots.length 0 st.slots e.2
    have hstep : sumFor t (splitOne st e).sched
        ≤ sumFor t st.sched + (if e.1 = t then e.2 else 0) := by
      simp only [splitOne]
      rw [sumFor_append]
      by_cases het : e.1 = t
      · rw [if_pos het]
        have hfr2 : ∀ f ∈ (walk true e.1 st.slots.length 0 st.slots e.2).frags,
            f.task = t := fun f hf => (hfr f hf).trans het
        rw [sumFor_eq_sumDur hfr2]
        omega
      · rw [if_neg het, sumFor_eq_zero hfr het]
    have hsplit : entriesFor t (e :: es)
        = (if e.1 = t then e.2 else 0) + entriesFor t es := by
      by_cases het : e.1 = t
      · simp [entriesFor, List.filter_cons, het]
      · simp [entriesFor, List.filter_cons, het]
    omega

theorem foldl_splitOne_finalRems_acc :
    ∀ (es : List (Task × Int)) (sl : List Slot) (sc : List Frag)
      (fr : List (Task × Int)),
      (es.foldl splitOne ⟨sl, sc, fr⟩).finalRems
        = fr ++ (es.foldl splitOne ⟨sl, sc, []⟩).finalRems := by
  intro es
  induction es with
  | nil => intro sl sc fr; simp
  | cons e es ih =>
    intro sl sc fr
    rw [List.foldl_cons, List.foldl_cons]
    show (es.foldl splitOne ⟨_, _, fr ++ [(e.1, _)]⟩).finalRems
      = fr ++ (es.foldl splitOne ⟨_, _, [] ++ [(e.1, _)]⟩).finalRems
    rw [ih, ih _ _ ([] ++ [(e.1, _)])]
    simp

theorem foldl_splitOne_zip :
    ∀ (es : List (Task × Int)) (sl : List Slot) (sc : List Frag),
      (∀ e ∈ es, 0 ≤ e.2) →
      ∀ p ∈ es.zip (es.foldl splitOne ⟨sl, sc, []⟩).finalRems,
        p.2.1 = p.1.1 ∧ 0 ≤ p.2.2 ∧ p.2.2 ≤ p.1.2 := by
  intro es
  induction es with
  | nil => intro sl sc _ p hp; simp at hp
  | cons e es ih =>
    intro sl sc hpos p hp
    rw [List.foldl_cons] at hp
    have he2 : 0 ≤ e.2 := hpos e (List.mem_cons_self e es)
    have hw := walk_rem_le true e.1 sl.length 0 sl e.2
    have hnn := walk_rem_nonneg true e.1 sl.length 0 sl e.2 he2
    have hfin : (es.foldl splitOne (splitOne ⟨sl, sc, []⟩ e)).finalRems
        = (e.1, (walk true e.1 sl.length 0 sl e.2).rem)
          :: (es.foldl splitOne
              ⟨(walk true e.1 sl.length 0 sl e.2).slots,
               sc ++ (walk true e.1 sl.length 0 sl e.2).frags, []⟩).finalRems := by
      show (es.foldl splitOne ⟨_, _, [] ++ [(e.1, _)]⟩).finalRems = _
      rw [foldl_splitOne_finalRems_acc]
      simp
    rw [hfin] at hp
    rcases List.mem_cons.mp hp with hp | hp
    · subst hp
      exact ⟨rfl, hnn, hw⟩
    · have hp2 := List.of_mem_zip hp
      exact ih _ _ (fun x hx => hpos x (List.mem_cons_of_mem e hx)) p hp

/-- C4.  For a task `t` occurring exactly once in a well-formed input
(positive durations, disjoint ascending slots), one full pass never
records more fragment minutes for `t` than its duration, and the
tracked remaining values only ever shrink and never go negative: every
`unscheduled_tasks` entry carries `0 < remaining <= duration`, and
`split_up_tasks` only decreases an entry's remaining, never below
zero. -/
theorem C4_fragment_sum_le_duration (tasks : List Task) (raw : List (Int × Int))
    (t : Task) (h1 : tasks.count t = 1) (h2 : ∀ u ∈ tasks, 0 < u.duration)
    (h3 : WellFormedSlots raw) :
    sumFor t (schedule_tasks tasks (mkPool raw)).sched ≤ t.duration ∧
    (∀ e ∈ (schedule_tasks tasks (mkPool raw)).unscheduled,
      0 < e.2 ∧ e.2 ≤ e.1.duration) ∧
    (∀ p ∈ (schedule_tasks tasks (mkPool raw)).unscheduled.zip
        (schedule_tasks tasks (mkPool raw)).finalRems,
      0 ≤ p.2.2 ∧ p.2.2 ≤ p.1.2) := by
  have htmem : t ∈ tasks := by
    rw [← List.count_pos_iff]
    omega
  have hd : 0 ≤ t.duration := le_of_lt (h2 t htmem)
  have hcnt : (sortTasks tasks).count t = 1 := by
    rw [(sortTasks_perm tasks).count_eq]
    exact h1
  rw [schedule_tasks_eq]
  simp only
  set p1 := (sortTasks tasks).foldl schedOne
    (⟨mkPool raw, [], []⟩ : Pass1Out) with hp1
  have hacct : sumFor t p1.sched + entriesFor t p1.unscheduled = t.duration := by
    have := foldl_schedOne_acct_once t hd (sortTasks tasks)
      ⟨mkPool raw, [], []⟩ hcnt
    rw [← hp1] at this
    simpa [sumFor, entriesFor, sumDur] using this
  have hbounds : ∀ e ∈ p1.unscheduled, 0 < e.2 ∧ e.2 ≤ e.1.duration := by
    have := foldl_schedOne_unsch_bounds (sortTasks tasks)
      ⟨mkPool raw, [], []⟩ (by intro e he; simp at he)
    rw [← hp1] at this
    exact this
  have hpos : ∀ e ∈ p1.unscheduled, 0 ≤ e.2 :=
    fun e he => le_of_lt (hbounds e he).1
  refine ⟨?_, hbounds, ?_⟩
  · have := foldl_splitOne_acct t p1.unscheduled
      ⟨p1.slots, p1.sched, []⟩ hpos
    calc sumFor t (split_up_tasks p1.unscheduled p1.slots p1.sched).sched
        ≤ sumFor t p1.sched + entriesFor t p1.unscheduled := this
      _ = t.duration := hacct
  · intro p hp
    exact ((foldl_splitOne_zip p1.unscheduled p1.slots p1.sched hpos) p hp).2

/-- Witness for C4 at a concrete input: one task of duration 80 against
slots of 30 and 20 minutes. -/
theorem C4_fragment_sum_le_duration_witness :
    ([(⟨"A", 1, 0, 80⟩ : Task)].count ⟨"A", 1, 0, 80⟩ = 1) ∧
    (∀ u ∈ [(⟨"A", 1, 0, 80⟩ : Task)], 0 < u.duration) ∧
    WellFormedSlots [(0, 30), (40, 60)] ∧
    (sumFor ⟨"A", 1, 0, 80⟩
        (schedule_tasks [⟨"A", 1, 0, 80⟩] (mkPool [(0, 30), (40, 60)])).sched
      ≤ (80 : Int) ∧
     (∀ e ∈ (schedule_tasks [⟨"A", 1, 0, 80⟩]
          (mkPool [(0, 30), (40, 60)])).unscheduled,
        0 < e.2 ∧ e.2 ≤ e.1.duration) ∧
     (∀ p ∈ (schedule_tasks [⟨"A", 1, 0, 80⟩]
          (mkPool [(0, 30), (40, 60)])).unscheduled.zip
            (schedule_tasks [⟨"A", 1, 0, 80⟩]
              (mkPool [(0, 30), (40, 60)])).finalRems,
        0 ≤ p.2.2 ∧ p.2.2 ≤ p.1.2)) :=
  ⟨by decide, by decide, by decide,
   C4_fragment_sum_le_duration [⟨"A", 1, 0, 80⟩] [(0, 30), (40, 60)]
     ⟨"A", 1, 0, 80⟩ (by decide) (by decide) (by decide)⟩

theorem walk_false_pos_rem (t : Task) :
    ∀ (fuel i : Nat) (slots : List Slot) (rem : Int),
      slots.length ≤ fuel + i →
      0 < (walk false t fuel i slots rem).rem →
      (walk false t fuel i slots rem).slots.length < slots.length ∨
      ((walk false t fuel i slots rem).slots = slots ∧
        ∀ k, i ≤ k → ∀ s, slots[k]? = some s → s.stop - s.start ≤ 0) := by
  intro fuel
  induction fuel with
  | zero =>
    intro i slots rem hlen hrem
    rw [walk_zero] at hrem ⊢
    refine Or.inr ⟨rfl, ?_⟩
    intro k hk s hsk
    rw [List.getElem?_eq_none (by omega)] at hsk
    exact absurd hsk (by simp)
  | succ fuel ih =>
    intro i slots rem hlen hrem
    cases hs : slots[i]? with
    | none =>
      rw [walk_succ_none hs] at hrem ⊢
      have hni : slots.length ≤ i := List.getElem?_eq_none_iff.mp hs
      refine Or.inr ⟨rfl, ?_⟩
      intro k hk s hsk
      rw [List.getElem?_eq_none (by omega)] at hsk
      exact absurd hsk (by simp)
    | some s =>
      have hi : i < slots.length := by
        by_contra hcon
        push_neg at hcon
        rw [List.getElem?_eq_none hcon] at hs
        exact absurd hs (by simp)
      rw [walk_succ_some hs] at hrem ⊢
      by_cases hg : 0 < rem ∧ 0 < s.stop - s.start
      · rw [if_pos hg] at hrem ⊢
        by_cases hpop : s.stop ≤ s.start + min rem (s.stop - s.start)
        · rw [if_pos hpop] at hrem ⊢
          refine Or.inl ?_
          dsimp only
          rw [List.length_eraseIdx_of_lt (by rw [List.length_set]; exact hi)]
          rw [List.length_set]
          omega
        · rw [if_neg hpop] at hrem ⊢
          rw [if_neg (by simp : ¬((false : Bool) ∧
            rem - min rem (s.stop - s.start) ≤ 0))] at hrem ⊢
          have hcrem : rem - min rem (s.stop - s.start) ≤ 0 := by omega
          rw [walk_nonpos false t fuel (i + 1) _ _ hcrem] at hrem
          dsimp only at hrem
          omega
      · rw [if_neg hg] at hrem ⊢
        rw [if_neg (by simp : ¬((false : Bool) ∧ rem ≤ 0))] at hrem ⊢
        have hrle := walk_rem_le false t fuel (i + 1) slots rem
        rcases ih (i + 1) slots rem (by omega) hrem with h | ⟨heq, hdead⟩
        · exact Or.inl h
        · refine Or.inr ⟨heq, ?_⟩
          intro k hk s2 hsk
          rcases Nat.eq_or_lt_of_le hk with hki | hki
          · rw [← hki] at hsk
            rw [hs] at hsk
            obtain rfl : s = s2 := Option.some.inj hsk
            omega
          · exact hdead k hki s2 hsk

theorem foldl_schedOne_len :
    ∀ (l : List Task) (st : Pass1Out),
      (l.foldl schedOne st).sched.length ≤ st.sched.length + l.length ∧
      (l.foldl schedOne st).unscheduled.length
        ≤ st.unscheduled.length + l.length := by
  intro l
  induction l with
  | nil => intro st; exact ⟨Nat.le_refl _, Nat.le_refl _⟩
  | cons u l ih =>
    intro st
    rw [List.foldl_cons]
    have hrec := ih (schedOne st u)
    have h1 : (schedOne st u).sched.length ≤ st.sched.length + 1 := by
      simp only [schedOne, List.length_append]
      have := walk_frags_len false u st.slots.length 0 st.slots u.duration
      omega
    have h2 : (schedOne st u).unscheduled.length ≤ st.unscheduled.length + 1 := by
      simp only [schedOne]
      by_cases hr : 0 < (walk false u st.slots.length 0 st.slots u.duration).rem
      · rw [if_pos hr]; simp
      · rw [if_neg hr]; simp
    constructor
    · calc (List.foldl schedOne (schedOne st u) l).sched.length
          ≤ (schedOne st u).sched.length + l.length := hrec.1
        _ ≤ st.sched.length + 1 + l.length := by omega
        _ = st.sched.length + (u :: l).length := by simp; omega
    · calc (List.foldl schedOne (schedOne st u) l).unscheduled.length
          ≤ (schedOne st u).unscheduled.length + l.length := hrec.2
        _ ≤ st.unscheduled.length + 1 + l.length := by omega
        _ = st.unscheduled.length + (u :: l).length := by simp; omega

theorem foldl_splitOne_len :
    ∀ (es : List (Task × Int)) (st : Pass2Out),
      (es.foldl splitOne st).sched.length ≤ st.sched.length + es.length := by
  intro es
  induction es with
  | nil => intro st; exact Nat.le_refl _
  | cons e es ih =>
    intro st
    rw [List.foldl_cons]
    have hrec := ih (splitOne st e)
    have h1 : (splitOne st e).sched.length ≤ st.sched.length + 1 := by
      simp only [splitOne, List.length_append]
      have := walk_frags_len true e.1 st.slots.length 0 st.slots e.2
      omega
    calc (List.foldl splitOne (splitOne st e) es).sched.length
        ≤ (splitOne st e).sched.length + es.length := hrec
      _ ≤ st.sched.length + 1 + es.length := by omega
      _ = st.sched.length + (e :: es).length := by simp; omega

theorem foldl_schedOne_singleton :
    ∀ (l : List Task) (st : Pass1Out),
      st.slots.length ≤ 1 →
      (st.unscheduled ≠ [] →
        st.slots = [] ∨ ∀ s ∈ st.slots, s.stop - s.start ≤ 0) →
      (l.foldl schedOne st).slots.length ≤ 1 ∧
      ((l.foldl schedOne st).unscheduled ≠ [] →
        (l.foldl schedOne st).slots = [] ∨
        ∀ s ∈ (l.foldl schedOne st).slots, s.stop - s.start ≤ 0) := by
  intro l
  induction l with
  | nil => intro st h1 h2; exact ⟨h1, h2⟩
  | cons u l ih =>
    intro st h1 h2
    rw [List.foldl_cons]
    refine ih (schedOne st u) ?_ ?_
    · have := walk_slots_len_le false u st.slots.length 0 st.slots u.duration
      simp only [schedOne]
      omega
    · intro hne2
      by_cases hu : st.unscheduled = []
      · have hr : 0 < (walk false u st.slots.length 0 st.slots u.duration).rem := by
          by_contra hcon
          apply hne2
          simp only [schedOne, if_neg hcon, hu]
        rcases walk_false_pos_rem u st.slots.length 0 st.slots u.duration
            (by omega) hr with hlt | ⟨heq, hdead⟩
        · refine Or.inl ?_
          have : (schedOne st u).slots.length = 0 := by
            simp only [schedOne]
            omega
          exact List.length_eq_zero.mp this
        · refine Or.inr ?_
          intro s hsmem
          have hsm2 : s ∈ st.slots := by
            simp only [schedOne] at hsmem
            rw [heq] at hsmem
            exact hsmem
          rcases List.mem_iff_getElem?.mp hsm2 with ⟨k, hk⟩
          exact hdead k (Nat.zero_le k) s hk
      · rcases h2 hu with hnil | hdead
        · refine Or.inl ?_
          simp only [schedOne, hnil, List.length_nil, walk_nil]
        · have hw := walk_dead false u st.slots.length 0 st.slots u.duration hdead
          refine Or.inr ?_
          intro s hsmem
          simp only [schedOne, hw] at hsmem
          exact hdead s hsmem

theorem foldl_splitOne_dead :
    ∀ (es : List (Task × Int)) (st : Pass2Out),
      (st.slots = [] ∨ ∀ s ∈ st.slots, s.stop - s.start ≤ 0) →
      (es.foldl splitOne st).sched = st.sched := by
  intro es
  induction es with
  | nil => intro st _; rfl
  | cons e es ih =>
    intro st h
    rw [List.foldl_cons]
    rcases h with hnil | hdead
    · have hstep : splitOne st e = ⟨[], st.sched, st.finalRems ++ [(e.1, e.2)]⟩ := by
        simp only [splitOne, hnil, List.length_nil, walk_nil]
        simp
      rw [hstep]
      exact ih _ (Or.inl rfl)
    · have hw := walk_dead true e.1 st.slots.length 0 st.slots e.2 hdead
      have hstep : splitOne st e
          = ⟨st.slots, st.sched, st.finalRems ++ [(e.1, e.2)]⟩ := by
        simp only [splitOne, hw]
        simp
      rw [hstep]
      exact ih _ (Or.inr hdead)

/-- C9.  One allocation pass always terminates — the embedding is a
total, structurally recursive function — and its work is bounded by the
product of the task count and the slot count: the ledger it produces
holds at most `tasks.length * slots.length` fragments (each task gains
at most one fragment in `schedule_tasks` and at most one more in
`split_up_tasks`, and with fewer than two slots the split phase can
produce none). -/
theorem C9_pass_work_bounded (tasks : List Task) (slots : List Slot) :
    (schedule_tasks tasks slots).sched.length
      ≤ tasks.length * slots.length := by
  rw [schedule_tasks_eq]
  simp only
  have hT := sortTasks_length tasks
  have hp1 := foldl_schedOne_len (sortTasks tasks) ⟨slots, [], []⟩
  simp only [List.length_nil, Nat.zero_add] at hp1
  match hS : slots.length with
  | 0 =>
    have hnil : slots = [] := List.length_eq_zero.mp hS
    subst hnil
    rw [foldl_schedOne_nil_slots]
    rw [split_up_tasks, foldl_splitOne_nil_slots]
    simp
  | 1 =>
    have hsing := foldl_schedOne_singleton (sortTasks tasks) ⟨slots, [], []⟩
      (by dsimp only; omega) (by intro h; exact absurd rfl h)
    rw [split_up_tasks]
    set p1 := (sortTasks tasks).foldl schedOne
      (⟨slots, [], []⟩ : Pass1Out) with hp1def
    by_cases hu : p1.unscheduled = []
    · rw [hu]
      show p1.sched.length ≤ tasks.length * 1
      omega
    · have hdead := hsing.2 hu
      rw [foldl_splitOne_dead p1.unscheduled ⟨p1.slots, p1.sched, []⟩
        (by simpa using hdead)]
      show p1.sched.length ≤ tasks.length * 1
      omega
  | (S + 2) =>
    have hp2 := foldl_splitOne_len
      ((sortTasks tasks).foldl schedOne (⟨slots, [], []⟩ : Pass1Out)).unscheduled
      ⟨((sortTasks tasks).foldl schedOne (⟨slots, [], []⟩ : Pass1Out)).slots,
       ((sortTasks tasks).foldl schedOne (⟨slots, [], []⟩ : Pass1Out)).sched, []⟩
    rw [split_up_tasks]
    simp only at hp2
    calc (List.foldl splitOne
          ⟨((sortTasks tasks).foldl schedOne (⟨slots, [], []⟩ : Pass1Out)).slots,
           ((sortTasks tasks).foldl schedOne (⟨slots, [], []⟩ : Pass1Out)).sched, []⟩
          ((sortTasks tasks).foldl schedOne
            (⟨slots, [], []⟩ : Pass1Out)).unscheduled).sched.length
        ≤ ((sortTasks tasks).foldl schedOne
            (⟨slots, [], []⟩ : Pass1Out)).sched.length
          + ((sortTasks tasks).foldl schedOne
              (⟨slots, [], []⟩ : Pass1Out)).unscheduled.length := hp2
      _ ≤ tasks.length * 2 := by omega
      _ ≤ tasks.length * (S + 2) :=
          Nat.mul_le_mul (Nat.le_refl tasks.length) (by omega)

theorem lastEnd_nil (lo : Int) : lastEnd lo [] = lo := rfl

theorem lastEnd_cons (lo : Int) (f : Frag) (fs : List Frag) :
    lastEnd lo (f :: fs) = lastEnd f.stop fs := rfl

theorem lastEnd_append_single (lo : Int) (fs : List Frag) (f : Frag) :
    lastEnd lo (fs ++ [f]) = f.stop := by
  simp [lastEnd, List.foldl_append]

theorem chainIn_le_lastEnd :
    ∀ (fs : List Frag) (lo hi : Int), ChainIn lo hi fs → lo ≤ lastEnd lo fs := by
  intro fs
  induction fs with
  | nil => intro lo hi _; exact le_refl lo
  | cons f fs ih =>
    intro lo hi h
    obtain ⟨h1, h2, h3, h4⟩ := h
    rw [lastEnd_cons]
    calc lo ≤ f.stop := by omega
      _ ≤ lastEnd f.stop fs := ih f.stop hi h4

theorem chainIn_append_single :
    ∀ (fs : List Frag) (lo hi : Int) (f : Frag), ChainIn lo hi fs →
      lastEnd lo fs ≤ f.start → f.start < f.stop → f.stop ≤ hi →
      ChainIn lo hi (fs ++ [f]) := by
  intro fs
  induction fs with
  | nil =>
    intro lo hi f _ h1 h2 h3
    exact ⟨h1, h2, h3, trivial⟩
  | cons g gs ih =>
    intro lo hi f hch h1 h2 h3
    obtain ⟨hg1, hg2, hg3, hg4⟩ := hch
    rw [lastEnd_cons] at h1
    exact ⟨hg1, hg2, hg3, ih g.stop hi f hg4 h1 h2 h3⟩

theorem chainIn_bounds :
    ∀ (fs : List Frag) (lo hi : Int), ChainIn lo hi fs →
      ∀ f ∈ fs, lo ≤ f.start ∧ f.start < f.stop ∧ f.stop ≤ hi := by
  intro fs
  induction fs with
  | nil => intro lo hi _ f hf; simp at hf
  | cons g gs ih =>
    intro lo hi hch f hf
    obtain ⟨hg1, hg2, hg3, hg4⟩ := hch
    rcases List.mem_cons.mp hf with hf | hf
    · subst hf; exact ⟨hg1, hg2, hg3⟩
    · have := ih g.stop hi hg4 f hf
      exact ⟨by omega, this.2.1, this.2.2⟩

theorem chainIn_pairwise :
    ∀ (fs : List Frag) (lo hi : Int), ChainIn lo hi fs →
      fs.Pairwise (fun f g => f.stop ≤ g.start) := by
  intro fs
  induction fs with
  | nil => intro lo hi _; exact List.Pairwise.nil
  | cons g gs ih =>
    intro lo hi hch
    obtain ⟨hg1, hg2, hg3, hg4⟩ := hch
    refine List.Pairwise.cons ?_ (ih g.stop hi hg4)
    intro f hf
    exact (chainIn_bounds gs g.stop hi hg4 f hf).1

theorem fragsOf_nil (j : Nat) : fragsOf j [] = [] := rfl

theorem fragsOf_append (j : Nat) (a b : List Frag) :
    fragsOf j (a ++ b) = fragsOf j a ++ fragsOf j b := by
  simp [fragsOf, List.filter_append]

theorem fragsOf_single_eq {j : Nat} {f : Frag} (h : f.slotId = j) :
    fragsOf j [f] = [f] := by
  simp [fragsOf, h]

theorem fragsOf_single_ne {j : Nat} {f : Frag} (h : f.slotId ≠ j) :
    fragsOf j [f] = [] := by
  simp [fragsOf, h]

theorem set_getElem?_self :
    ∀ {α : Type} (l : List α) (i : Nat) (a : α), l[i]? = some a →
      l.set i a = l := by
  intro α l
  induction l with
  | nil => intro i a h; simp at h
  | cons x xs ih =>
    intro i a h
    cases i with
    | zero =>
      simp at h
      rw [h]
      rfl
    | succ i =>
      simp at h
      rw [List.set_cons_succ, ih i a (by simpa using h)]

theorem PoolInv_ids_set {j : Nat} {s0 e0 : Int} {slots : List Slot}
    {sched : List Frag} {i : Nat} {s : Slot} (hs : slots[i]? = some s)
    (x y : Int) (hinv : PoolInv j s0 e0 slots sched) :
    ((slots.set i ⟨s.id, x, y⟩).map Slot.id).Nodup := by
  have hmap : (slots.set i ⟨s.id, x, y⟩).map Slot.id
      = (slots.map Slot.id).set i s.id := by
    rw [List.map_set]
  rw [hmap]
  have hid : (slots.map Slot.id)[i]? = some s.id := by
    rw [List.getElem?_map, hs]
    rfl
  rw [set_getElem?_self _ i s.id hid]
  exact hinv.2.1

theorem PoolInv_carve {j : Nat} {s0 e0 : Int} {slots : List Slot}
    {sched : List Frag} {i : Nat} {s : Slot} {rem : Int} (t : Task)
    (hinv : PoolInv j s0 e0 slots sched) (hs : slots[i]? = some s)
    (hrem : 0 < rem) (hd : 0 < s.stop - s.start) :
    PoolInv j s0 e0
      (slots.set i ⟨s.id, s.start + min rem (s.stop - s.start), s.stop⟩)
      (sched ++ [⟨t, s.start, s.start + min rem (s.stop - s.start), s.id⟩]) := by
  have hi : i < slots.length := by
    by_contra hcon
    push_neg at hcon
    rw [List.getElem?_eq_none hcon] at hs
    exact absurd hs (by simp)
  have hc : 0 < min rem (s.stop - s.start) := lt_min hrem hd
  have hcd : min rem (s.stop - s.start) ≤ s.stop - s.start := min_le_right _ _
  by_cases hsj : s.id = j
  · -- carving the tracked slot: extend the chain
    obtain ⟨hstop, hlast⟩ := hinv.2.2 s (List.getElem?_mem hs) hsj
    have hfj : (⟨t, s.start, s.start + min rem (s.stop - s.start), s.id⟩
        : Frag).slotId = j := hsj
    have hfrags : fragsOf j (sched
          ++ [⟨t, s.start, s.start + min rem (s.stop - s.start), s.id⟩])
        = fragsOf j sched
          ++ [⟨t, s.start, s.start + min rem (s.stop - s.start), s.id⟩] := by
      rw [fragsOf_append, fragsOf_single_eq hfj]
    refine ⟨?_, ?_, ?_⟩
    · rw [hfrags]
      exact chainIn_append_single _ _ _ _ hinv.1 hlast (by dsimp only; omega)
        (by dsimp only; omega)
    · exact PoolInv_ids_set hs _ _ hinv
    · intro s2 hs2 hid2
      rcases List.mem_iff_getElem?.mp hs2 with ⟨k, hk⟩
      by_cases hki : k = i
      · subst hki
        rw [List.getElem?_set_self hi] at hk
        have : (⟨s.id, s.start + min rem (s.stop - s.start), s.stop⟩ : Slot)
            = s2 := by
          exact Option.some.inj hk
        rw [← this]
        refine ⟨hstop, ?_⟩
        rw [hfrags, lastEnd_append_single]
      · rw [List.getElem?_set_ne (fun h => hki h.symm)] at hk
        -- another slot with id j would break Nodup of ids
        exfalso
        have hidk : (slots.map Slot.id)[k]? = some j := by
          rw [List.getElem?_map, hk]
          simp [hid2]
        have hidi : (slots.map Slot.id)[i]? = some j := by
          rw [List.getElem?_map, hs]
          simp [hsj]
        have hklen : k < (slots.map Slot.id).length := by
          have hks : k < slots.length := by
            by_contra hcon
            push_neg at hcon
            rw [List.getElem?_eq_none hcon] at hk
            exact absurd hk (by simp)
          simpa using hks
        have : k = i :=
          List.getElem?_inj hklen hinv.2.1
            (show (slots.map Slot.id)[k]? = (slots.map Slot.id)[i]? by
              rw [hidk, hidi])
        exact hki this
  · -- carving a different slot: the tracked data is untouched
    have hfj : (⟨t, s.start, s.start + min rem (s.stop - s.start), s.id⟩
        : Frag).slotId ≠ j := hsj
    have hfrags : fragsOf j (sched
          ++ [⟨t, s.start, s.start + min rem (s.stop - s.start), s.id⟩])
        = fragsOf j sched := by
      rw [fragsOf_append, fragsOf_single_ne hfj, List.append_nil]
    refine ⟨by rw [hfrags]; exact hinv.1, PoolInv_ids_set hs _ _ hinv, ?_⟩
    intro s2 hs2 hid2
    rw [hfrags]
    rcases List.mem_iff_getElem?.mp hs2 with ⟨k, hk⟩
    by_cases hki : k = i
    · subst hki
      rw [List.getElem?_set_self hi] at hk
      have heq : (⟨s.id, s.start + min rem (s.stop - s.start), s.stop⟩ : Slot)
          = s2 := Option.some.inj hk
      exfalso
      apply hsj
      rw [← hid2, ← heq]
    · rw [List.getElem?_set_ne (fun h => hki h.symm)] at hk
      exact hinv.2.2 s2 (List.getElem?_mem hk) hid2

theorem PoolInv_eraseIdx {j : Nat} {s0 e0 : Int} {slots : List Slot}
    {sched : List Frag} (i : Nat) (hinv : PoolInv j s0 e0 slots sched) :
    PoolInv j s0 e0 (slots.eraseIdx i) sched := by
  refine ⟨hinv.1, ?_, ?_⟩
  · exact List.Nodup.sublist ((List.eraseIdx_sublist slots i).map Slot.id)
      hinv.2.1
  · intro s2 hs2 hid2
    exact hinv.2.2 s2 ((List.eraseIdx_sublist slots i).subset hs2) hid2

theorem walk_PoolInv (j : Nat) (s0 e0 : Int) (sp : Bool) (t : Task) :
    ∀ (fuel i : Nat) (slots : List Slot) (rem : Int) (sched : List Frag),
      PoolInv j s0 e0 slots sched →
      PoolInv j s0 e0 (walk sp t fuel i slots rem).slots
        (sched ++ (walk sp t fuel i slots rem).frags) := by
  intro fuel
  induction fuel with
  | zero =>
    intro i slots rem sched hinv
    rw [walk_zero]
    simpa using hinv
  | succ fuel ih =>
    intro i slots rem sched hinv
    cases hs : slots[i]? with
    | none =>
      rw [walk_succ_none hs]
      simpa using hinv
    | some s =>
      rw [walk_succ_some hs]
      by_cases hg : 0 < rem ∧ 0 < s.stop - s.start
      · rw [if_pos hg]
        have hcarve := PoolInv_carve t hinv hs hg.1 hg.2
        by_cases hpop : s.stop ≤ s.start + min rem (s.stop - s.start)
        · rw [if_pos hpop]
          exact PoolInv_eraseIdx i hcarve
        · rw [if_neg hpop]
          by_cases hbr : (sp : Prop) ∧ rem - min rem (s.stop - s.start) ≤ 0
          · rw [if_pos hbr]
            exact hcarve
          · rw [if_neg hbr]
            have := ih (i + 1)
              (slots.set i ⟨s.id, s.start + min rem (s.stop - s.start), s.stop⟩)
              (rem - min rem (s.stop - s.start))
              (sched ++ [⟨t, s.start, s.start + min rem (s.stop - s.start), s.id⟩])
              hcarve
            dsimp only
            rw [show sched
                ++ (⟨t, s.start, s.start + min rem (s.stop - s.start), s.id⟩
                  :: (walk sp t fuel (i + 1)
                    (slots.set i
                      ⟨s.id, s.start + min rem (s.stop - s.start), s.stop⟩)
                    (rem - min rem (s.stop - s.start))).frags)
              = (sched
                  ++ [⟨t, s.start, s.start + min rem (s.stop - s.start), s.id⟩])
                ++ (walk sp t fuel (i + 1)
                    (slots.set i
                      ⟨s.id, s.start + min rem (s.stop - s.start), s.stop⟩)
                    (rem - min rem (s.stop - s.start))).frags by simp]
            exact this
      · rw [if_neg hg]
        by_cases hbr : (sp : Prop) ∧ rem ≤ 0
        · rw [if_pos hbr]
          simpa using hinv
        · rw [if_neg hbr]
          exact ih (i + 1) slots rem sched hinv

theorem foldl_schedOne_PoolInv (j : Nat) (s0 e0 : Int) :
    ∀ (l : List Task) (st : Pass1Out),
      PoolInv j s0 e0 st.slots st.sched →
      PoolInv j s0 e0 (l.foldl schedOne st).slots (l.foldl schedOne st).sched := by
  intro l
  induction l with
  | nil => intro st h; exact h
  | cons u l ih =>
    intro st h
    rw [List.foldl_cons]
    refine ih (schedOne st u) ?_
    simp only [schedOne]
    exact walk_PoolInv j s0 e0 false u st.slots.length 0 st.slots u.duration
      st.sched h

theorem foldl_splitOne_PoolInv (j : Nat) (s0 e0 : Int) :
    ∀ (es : List (Task × Int)) (st : Pass2Out),
      PoolInv j s0 e0 st.slots st.sched →
      PoolInv j s0 e0 (es.foldl splitOne st).slots
        (es.foldl splitOne st).sched := by
  intro es
  induction es with
  | nil => intro st h; exact h
  | cons e es ih =>
    intro st h
    rw [List.foldl_cons]
    refine ih (splitOne st e) ?_
    simp only [splitOne]
    exact walk_PoolInv j s0 e0 true e.1 st.slots.length 0 st.slots e.2
      st.sched h

theorem mkPool_PoolInv {raw : List (Int × Int)} {j : Nat} {s0 e0 : Int}
    (hj : raw[j]? = some (s0, e0)) :
    PoolInv j s0 e0 (mkPool raw) [] := by
  refine ⟨trivial, ?_, ?_⟩
  · have h1 : (mkPool raw).map Slot.id = raw.enum.map Prod.fst := by
      rw [mkPool, List.map_map]
      rfl
    rw [h1]
    exact List.nodup_enum_map_fst raw
  · intro s2 hs2 hid2
    simp only [mkPool, List.mem_map] at hs2
    obtain ⟨p, hp, hps⟩ := hs2
    have hfst : p.1 = j := by rw [← hid2, ← hps]
    have hget : raw[p.1]? = some p.2 := List.mem_enum_iff_getElem?.mp hp
    rw [hfst, hj] at hget
    have hp2 : p.2 = (s0, e0) := by
      have := Option.some.inj hget
      exact this.symm
    constructor
    · rw [← hps]
      show p.2.2 = e0
      rw [hp2]
    · rw [← hps]
      show lastEnd s0 (fragsOf j []) ≤ p.2.1
      rw [hp2, fragsOf_nil, lastEnd_nil]

/-- C5.  Under well-formed input (mutually disjoint slots listed in
ascending-start order), all fragments carved from slot `j` of the
loaded slot list `[s0, e0)` during one full pass lie entirely within
the slot's original bounds and are pairwise disjoint: each carve takes
`[start, start + carved)` off the current front of the slot and
advances its `start`, so the slot is only ever shrunk from the front
and successive fragments of one slot never overlap. -/
theorem C5_slot_fragments_within_bounds (tasks : List Task)
    (raw : List (Int × Int)) (j : Nat) (s0 e0 : Int)
    (hwf : WellFormedSlots raw) (hj : raw[j]? = some (s0, e0)) :
    (∀ f ∈ fragsOf j (schedule_tasks tasks (mkPool raw)).sched,
      s0 ≤ f.start ∧ f.start < f.stop ∧ f.stop ≤ e0) ∧
    (fragsOf j (schedule_tasks tasks (mkPool raw)).sched).Pairwise
      (fun f g => f.stop ≤ g.start) := by
  have h0 := mkPool_PoolInv hj
  have h1 := foldl_schedOne_PoolInv j s0 e0 (sortTasks tasks)
    ⟨mkPool raw, [], []⟩ h0
  have h2 := foldl_splitOne_PoolInv j s0 e0
    ((sortTasks tasks).foldl schedOne (⟨mkPool raw, [], []⟩ : Pass1Out)).unscheduled
    ⟨((sortTasks tasks).foldl schedOne (⟨mkPool raw, [], []⟩ : Pass1Out)).slots,
     ((sortTasks tasks).foldl schedOne (⟨mkPool raw, [], []⟩ : Pass1Out)).sched,
     []⟩ h1
  rw [schedule_tasks_eq]
  simp only
  rw [split_up_tasks]
  refine ⟨?_, ?_⟩
  · exact chainIn_bounds _ s0 e0 h2.1
  · exact chainIn_pairwise _ s0 e0 h2.1

/-- Witness for C5 at a concrete input: a task of duration 40 split
over the slots `[0, 30)` and `[50, 60)`; checked for the first slot. -/
theorem C5_slot_fragments_within_bounds_witness :
    WellFormedSlots [(0, 30), (50, 60)] ∧
    ([(0, 30), (50, 60)] : List (Int × Int))[0]? = some (0, 30) ∧
    ((∀ f ∈ fragsOf 0 (schedule_tasks [⟨"A", 1, 0, 40⟩]
        (mkPool [(0, 30), (50, 60)])).sched,
      (0 : Int) ≤ f.start ∧ f.start < f.stop ∧ f.stop ≤ 30) ∧
     (fragsOf 0 (schedule_tasks [⟨"A", 1, 0, 40⟩]
        (mkPool [(0, 30), (50, 60)])).sched).Pairwise
       (fun f g => f.stop ≤ g.start)) :=
  ⟨by decide, by decide,
   C5_slot_fragments_within_bounds [⟨"A", 1, 0, 40⟩] [(0, 30), (50, 60)]
     0 0 30 (by decide) (by decide)⟩

/-- C1.  Evaluation of the code at the claim's own Scenario D input:
tasks P(priority 5, due 2025-01-10, duration 30) and
Q(priority 5, due 2025-01-05, duration 30) with the single slot
[09:00, 09:30).  Because `reverse=True` reverses the whole
`(priority, due_date)` tuple comparison, the equal-priority tie is
broken by LATER due date first: the sorted order is [P, Q], P receives
the fragment [540, 570) = [09:00, 09:30), and Q ends unallocated with
its full 30 minutes remaining — the opposite of the claimed outcome
(Q scheduled, P unallocated). -/
theorem C1_later_due_date_wins_eval :
    sortTasks [⟨"P", 5, 20250110, 30⟩, ⟨"Q", 5, 20250105, 30⟩]
        = [⟨"P", 5, 20250110, 30⟩, ⟨"Q", 5, 20250105, 30⟩] ∧
    (schedule_tasks [⟨"P", 5, 20250110, 30⟩, ⟨"Q", 5, 20250105, 30⟩]
        (mkPool [(540, 570)])).sched
        = [⟨⟨"P", 5, 20250110, 30⟩, 540, 570, 0⟩] ∧
    (schedule_tasks [⟨"P", 5, 20250110, 30⟩, ⟨"Q", 5, 20250105, 30⟩]
        (mkPool [(540, 570)])).finalRems
        = [(⟨"Q", 5, 20250105, 30⟩, 30)] := by
  refine ⟨by decide, by decide, by decide⟩

/-- C2.  Evaluation of the code at H(priority 5, duration 100),
L(priority 3, duration 10), slots [09:00, 09:30) and [10:00, 11:00)
(total capacity 90 < 100).  `schedule_tasks` gives H only the first
slot (the carve exhausts it, `pop` + `break` end H's walk), then the
lower-priority L carves [10:00, 10:10) from the second slot; only
afterwards does `split_up_tasks` serve H's leftover from what is left.
H ends the pass still needing 20 minutes while L keeps the fragment
[600, 610) carved from capacity H still needed — refuting the claim
that the higher-priority task's demand is satisfied up to available
capacity before the lower-priority task receives any fragment. -/
theorem C2_low_priority_takes_needed_capacity_eval :
    (schedule_tasks [⟨"H", 5, 0, 100⟩, ⟨"L", 3, 0, 10⟩]
        (mkPool [(540, 570), (600, 660)])).sched
        = [⟨⟨"H", 5, 0, 100⟩, 540, 570, 0⟩,
           ⟨⟨"L", 3, 0, 10⟩, 600, 610, 1⟩,
           ⟨⟨"H", 5, 0, 100⟩, 610, 660, 1⟩] ∧
    (schedule_tasks [⟨"H", 5, 0, 100⟩, ⟨"L", 3, 0, 10⟩]
        (mkPool [(540, 570), (600, 660)])).finalRems
        = [(⟨"H", 5, 0, 100⟩, 20)] := by
  refine ⟨by decide, by decide⟩

/-- C3.  Evaluation of the code at a single task A of duration 90 with
slots of 30, 30 and 60 minutes.  In `split_up_tasks` the carve that
exhausts the second slot is followed by `pop` and then `break`, which
abandons the walk instead of continuing at the next slot: A ends the
pass with 30 minutes remaining while the third slot still holds 60
minutes of capacity — refuting the claim that remaining > 0 implies an
exhausted pool. -/
theorem C3_break_after_pop_strands_capacity_eval :
    (schedule_tasks [⟨"A", 1, 0, 90⟩]
        (mkPool [(0, 30), (40, 70), (80, 140)])).finalRems
        = [(⟨"A", 1, 0, 90⟩, 30)] ∧
    (schedule_tasks [⟨"A", 1, 0, 90⟩]
        (mkPool [(0, 30), (40, 70), (80, 140)])).slots
        = [⟨2, 80, 140⟩] := by
  refine ⟨by decide, by decide⟩

/-- C6.  Evaluation of the code at H(priority 5, duration 60),
L(priority 3, duration 10), slots of 30, 10 and 30 minutes.  H precedes
L in the Prioritizer's order, yet the final ledger is
[H-fragment, L-fragment, H-fragment]: H's leftover fragment is appended
by `split_up_tasks` after all first-pass fragments, so L's fragment
sits between two fragments of the higher-priority H — refuting the
claim that every fragment of an earlier task precedes every fragment of
a later task. -/
theorem C6_ledger_not_in_priority_order_eval :
    sortTasks [⟨"H", 5, 0, 60⟩, ⟨"L", 3, 0, 10⟩]
        = [⟨"H", 5, 0, 60⟩, ⟨"L", 3, 0, 10⟩] ∧
    (schedule_tasks [⟨"H", 5, 0, 60⟩, ⟨"L", 3, 0, 10⟩]
        (mkPool [(0, 30), (40, 50), (60, 90)])).sched
        = [⟨⟨"H", 5, 0, 60⟩, 0, 30, 0⟩,
           ⟨⟨"L", 3, 0, 10⟩, 40, 50, 1⟩,
           ⟨⟨"H", 5, 0, 60⟩, 60, 90, 2⟩] := by
  refine ⟨by decide, by decide⟩

/-- C8.  Evaluation of the loader model at a missing input file:
`get_data` catches `FileNotFoundError`, prints a message and returns
`None` (its own docstring instead promises to raise), and `main` never
checks the return value, so `schedule_tasks` still runs over the empty
task and slot lists and the program completes normally — the pass is
not aborted, refuting the claim that every unreadable input surfaces an
error to the caller and aborts the pass. -/
theorem C8_missing_file_does_not_abort_eval :
    mainRun .missingFile = .ok (schedule_tasks [] []) ∧
    mainRun .missingFile = .ok ⟨[], [], [], [], []⟩ := by
  refine ⟨rfl, rfl⟩

end TaskTrack
